import Mathlib

/-!
Verification of the fileshare peer-to-peer file transfer system.

Shallow embedding of the Python sources under `src/peer/`:
byte strings are `List Nat` (each element one byte value), Python
exceptions are modelled with explicit error results, and external
library primitives (RSA-OAEP, AES-GCM, SHA-256) are parameters whose
documented contracts appear as hypotheses where a claim needs them.
-/

namespace Fileshare

/-- Python exceptions that the modelled code can raise. -/
inductive PyErr where
  | attributeError
  | valueError
  | runtimeError
  deriving DecidableEq, Repr

/-! ## Byte-string helpers (Python `bytes` / `str` operations) -/

/-- Python `s.startswith(p)`. -/
def startsWith (p l : List Nat) : Bool := l.take p.length == p

/-- Python `s.split(sep, maxsplit)` on byte strings; `fuel` is the
`maxsplit` budget (pass `l.length` for an unlimited split, since each
split consumes at least one separator byte). -/
def pysplit (sep : Nat) : Nat → List Nat → List (List Nat)
  | _, [] => [[]]
  | 0, l => [l]
  | fuel + 1, b :: rest =>
    if b = sep then
      [] :: pysplit sep fuel rest
    else
      match pysplit sep (fuel + 1) rest with
      | [] => [[b]]
      | h :: t => (b :: h) :: t
  termination_by _ l => l.length

/-- Decimal rendering of a natural number, as ASCII byte values
(Python `str(n).encode()`); `fuel` bounds the recursion. -/
def natDigitsAux : Nat → Nat → List Nat
  | 0, _ => []
  | fuel + 1, n =>
    if n < 10 then [48 + n]
    else natDigitsAux fuel (n / 10) ++ [48 + n % 10]

/-- Decimal rendering of a natural number as ASCII bytes. -/
def natDigits (n : Nat) : List Nat := natDigitsAux (n + 1) n

/-- Is the byte an ASCII decimal digit? -/
def isDigit (b : Nat) : Bool := 48 ≤ b && b ≤ 57

/-- Value of an ASCII digit string. -/
def digitsVal (l : List Nat) : Nat := l.foldl (fun a d => a * 10 + (d - 48)) 0

/-- Python `int(s)` restricted to plain digit strings (the only form the
client ever sends); anything else raises `ValueError`, modelled as `none`. -/
def parseNat (l : List Nat) : Option Nat :=
  if l ≠ [] ∧ l.all isDigit then some (digitsVal l) else none

/-! ## Python `dict` as an insertion-ordered association list -/

/-- Python `d[k] = v`: overwrite in place if the key exists (keeping its
position), else append. -/
def dictSet {κ : Type} [DecidableEq κ] (m : List (κ × α)) (k : κ) (v : α) :
    List (κ × α) :=
  match m with
  | [] => [(k, v)]
  | (k', v') :: rest =>
    if k' = k then (k, v) :: rest else (k', v') :: dictSet rest k v

theorem lookup_dictSet_self {κ : Type} [DecidableEq κ] [BEq κ] [LawfulBEq κ]
    (m : List (κ × α)) (k : κ) (v : α) :
    (dictSet m k v).lookup k = some v := by
  induction m with
  | nil => simp [dictSet, List.lookup]
  | cons h t ih =>
    obtain ⟨k', v'⟩ := h
    by_cases hk : k' = k
    · simp [dictSet, hk, List.lookup]
    · have hbeq : (k == k') = false := beq_eq_false_iff_ne.mpr (Ne.symm hk)
      simp [dictSet, hk, List.lookup, hbeq, ih]

theorem lookup_dictSet_ne {κ : Type} [DecidableEq κ] [BEq κ] [LawfulBEq κ]
    (m : List (κ × α)) (k j : κ) (v : α)
    (hj : j ≠ k) : (dictSet m k v).lookup j = m.lookup j := by
  have hbeq : (j == k) = false := beq_eq_false_iff_ne.mpr hj
  induction m with
  | nil => simp [dictSet, List.lookup, hbeq]
  | cons h t ih =>
    obtain ⟨k', v'⟩ := h
    by_cases hk : k' = k
    · subst hk
      simp [dictSet, List.lookup, hbeq]
    · simp only [dictSet, if_neg hk, List.lookup]
      cases hbe : (j == k') <;> simp [hbe, ih]

/-! ## `src/peer/chunk_manager.py` -/

/-- `CHUNK_SIZE = 1024 * 1024` (1 MB). -/
def CHUNK_SIZE : Nat := 1024 * 1024

/-- The dictionary returned by `get_file_metadata`. -/
structure FileMeta where
  filename : List Nat
  size : Nat
  chunksize : Nat
  chunks : Nat
  hash : List Nat
  deriving DecidableEq, Repr

/-- `get_file_metadata(file_path)`: the file is modelled by its name and
content bytes; `H` is the SHA-256 hex-digest function (the streaming
`update` over successive `CHUNK_SIZE` reads accumulates exactly the whole
content, so the digest is `H content`). -/
def get_file_metadata (H : List Nat → List Nat) (filename content : List Nat) : FileMeta :=
  { filename := filename
    size := content.length
    chunksize := CHUNK_SIZE
    chunks := (content.length + CHUNK_SIZE - 1) / CHUNK_SIZE
    hash := H content }

/-- `read_chunk(file_path, chunk_index)`: seek to `chunk_index * CHUNK_SIZE`
and read up to `CHUNK_SIZE` bytes (a seek past end-of-file yields `b""`). -/
def read_chunk (content : List Nat) (chunk_index : Nat) : List Nat :=
  (content.drop (chunk_index * CHUNK_SIZE)).take CHUNK_SIZE

/-! ## Helper lemmas about the byte-string operations -/

theorem pysplit_no_sep (sep : Nat) (fuel : Nat) (l : List Nat) (h : sep ∉ l) :
    pysplit sep fuel l = [l] := by
  induction l generalizing fuel with
  | nil => cases fuel <;> simp [pysplit]
  | cons b rest ih =>
    cases fuel with
    | zero => simp [pysplit]
    | succ f =>
      have hb : b ≠ sep := fun hb => h (hb ▸ List.mem_cons_self b rest)
      have hrest : sep ∉ rest := fun hr => h (List.mem_cons_of_mem b hr)
      rw [pysplit, if_neg hb, ih (f + 1) hrest]

theorem pysplit_append_sep (sep : Nat) (fuel : Nat) (a b : List Nat) (ha : sep ∉ a) :
    pysplit sep (fuel + 1) (a ++ sep :: b) = a :: pysplit sep fuel b := by
  induction a with
  | nil => simp [pysplit]
  | cons x a' ih =>
    have hx : x ≠ sep := fun hx => ha (hx ▸ List.mem_cons_self x a')
    have ha' : sep ∉ a' := fun hr => ha (List.mem_cons_of_mem x hr)
    rw [List.cons_append, pysplit, if_neg hx, ih ha']

theorem startsWith_append (p r : List Nat) : startsWith p (p ++ r) = true := by
  simp [startsWith, List.take_left]

theorem natDigitsAux_all_digits :
    ∀ f n, n < f → (natDigitsAux f n).all isDigit = true := by
  intro f
  induction f with
  | zero => intro n h; omega
  | succ f ih =>
    intro n h
    rw [natDigitsAux]
    by_cases hn : n < 10
    · simp [hn, isDigit]
      omega
    · have hdiv : n / 10 < f := by omega
      simp [hn, List.all_append, ih (n / 10) hdiv, isDigit]
      omega

theorem natDigitsAux_ne_nil : ∀ f n, n < f → natDigitsAux f n ≠ [] := by
  intro f n h
  cases f with
  | zero => omega
  | succ f =>
    rw [natDigitsAux]
    by_cases hn : n < 10
    · simp [hn]
    · simp [hn]

theorem foldl_natDigitsAux :
    ∀ f n a, n < f →
      (natDigitsAux f n).foldl (fun a d => a * 10 + (d - 48)) a =
        a * 10 ^ (natDigitsAux f n).length + n := by
  intro f
  induction f with
  | zero => intro n a h; omega
  | succ f ih =>
    intro n a h
    rw [natDigitsAux]
    by_cases hn : n < 10
    · simp only [if_pos hn, List.foldl, List.length_cons, List.length_nil, pow_one]
      omega
    · have hdiv : n / 10 < f := by omega
      simp only [if_neg hn, List.foldl_append, List.foldl, List.length_append,
        List.length_cons, List.length_nil]
      rw [ih (n / 10) a hdiv]
      have h48 : 48 + n % 10 - 48 = n % 10 := by omega
      rw [h48, pow_succ]
      have : a * (10 ^ (natDigitsAux f (n / 10)).length * 10) =
          a * 10 ^ (natDigitsAux f (n / 10)).length * 10 := by ring
      rw [this]
      have hmod := Nat.div_add_mod n 10
      omega

theorem parseNat_natDigits (n : Nat) : parseNat (natDigits n) = some n := by
  have h1 := natDigitsAux_all_digits (n + 1) n (by omega)
  have h2 := natDigitsAux_ne_nil (n + 1) n (by omega)
  have h3 := foldl_natDigitsAux (n + 1) n 0 (by omega)
  simp only [parseNat, natDigits, digitsVal]
  rw [if_pos ⟨h2, h1⟩, h3]
  simp

theorem sep_not_mem_natDigits (n : Nat) : 124 ∉ natDigits n := by
  intro hmem
  have h1 := natDigitsAux_all_digits (n + 1) n (by omega)
  rw [List.all_eq_true] at h1
  have := h1 124 hmem
  simp [isDigit] at this

/-! ## Claim C5: chunk count and chunk lengths -/

/-- C5: for every nonempty file, `get_file_metadata` reports
`chunk_count = ceil(size / CHUNK_SIZE)` (characterised by
`CHUNK_SIZE * (chunks - 1) < size ≤ CHUNK_SIZE * chunks`), every chunk
before the last read by `read_chunk` has length `CHUNK_SIZE`, and the last
chunk has length `size - CHUNK_SIZE * (chunks - 1)`. -/
theorem chunk_metadata_correct (H : List Nat → List Nat) (name content : List Nat)
    (hne : content ≠ []) :
    ((get_file_metadata H name content).chunks =
        (content.length + CHUNK_SIZE - 1) / CHUNK_SIZE ∧
      CHUNK_SIZE * ((get_file_metadata H name content).chunks - 1) < content.length ∧
      content.length ≤ CHUNK_SIZE * (get_file_metadata H name content).chunks) ∧
    (∀ i, i < (get_file_metadata H name content).chunks - 1 →
      (read_chunk content i).length = CHUNK_SIZE) ∧
    (read_chunk content ((get_file_metadata H name content).chunks - 1)).length =
      content.length - CHUNK_SIZE * ((get_file_metadata H name content).chunks - 1) := by
  have hn : 0 < content.length := List.length_pos.mpr hne
  refine ⟨⟨rfl, ?_, ?_⟩, ?_, ?_⟩
  · simp only [get_file_metadata, CHUNK_SIZE]
    omega
  · simp only [get_file_metadata, CHUNK_SIZE]
    omega
  · intro i hi
    simp only [get_file_metadata, CHUNK_SIZE] at hi
    simp only [read_chunk, List.length_take, List.length_drop, CHUNK_SIZE]
    omega
  · simp only [get_file_metadata, read_chunk, List.length_take, List.length_drop, CHUNK_SIZE]
    omega

/-- Witness for `chunk_metadata_correct` at a concrete three-byte file. -/
theorem chunk_metadata_correct_witness :
    ([1, 2, 3] : List Nat) ≠ [] ∧
    (((get_file_metadata (fun b => b) [102] [1, 2, 3]).chunks =
        (([1, 2, 3] : List Nat).length + CHUNK_SIZE - 1) / CHUNK_SIZE ∧
      CHUNK_SIZE * ((get_file_metadata (fun b => b) [102] [1, 2, 3]).chunks - 1) <
        ([1, 2, 3] : List Nat).length ∧
      ([1, 2, 3] : List Nat).length ≤
        CHUNK_SIZE * (get_file_metadata (fun b => b) [102] [1, 2, 3]).chunks) ∧
    (∀ i, i < (get_file_metadata (fun b => b) [102] [1, 2, 3]).chunks - 1 →
      (read_chunk [1, 2, 3] i).length = CHUNK_SIZE) ∧
    (read_chunk [1, 2, 3] ((get_file_metadata (fun b => b) [102] [1, 2, 3]).chunks - 1)).length =
      ([1, 2, 3] : List Nat).length -
        CHUNK_SIZE * ((get_file_metadata (fun b => b) [102] [1, 2, 3]).chunks - 1)) :=
  ⟨by decide, chunk_metadata_correct (fun b => b) [102] [1, 2, 3] (by decide)⟩

/-! ## `src/peer/main.py`: the discovery registry -/

/-- `TIL = 60`, the registry's time-to-live in seconds (name as in the source). -/
def TIL : Nat := 60

/-- The value stored in the `PEERS` dict for one peer. -/
structure RegEntry where
  ip : List Nat
  port : Nat
  public_key : List Nat
  files : List (List Nat)
  last_seen : Nat
  deriving DecidableEq, Repr

/-- One element of the list returned by `GET /peers`. -/
structure PeersItem where
  peer_id : List Nat
  ip : List Nat
  port : Nat
  files : List (List Nat)
  deriving DecidableEq, Repr

/-- The bytes of `"127.0.0.1"`. -/
def localhost4 : List Nat := [49, 50, 55, 46, 48, 46, 48, 46, 49]

/-- The bytes of `"localhost"`. -/
def localhostName : List Nat := [108, 111, 99, 97, 108, 104, 111, 115, 116]

/-- The client-IP resolution at the top of `register_peer`: use the
provided IP, fall back to the connection source `clientHost`, and remap
localhost addresses back to `clientHost`. -/
def resolve_client_ip (clientHost : List Nat) (ip : Option (List Nat)) : List Nat :=
  let client_ip := match ip with | some i => i | none => clientHost
  if client_ip = localhost4 ∨ client_ip = localhostName then clientHost else client_ip

/-- `POST /register`: insert or overwrite the `PEERS` entry for
`peer_id`, stamping `last_seen = now` (`time.time()` is passed in as
`now`). -/
def register_peer (st : List (List Nat × RegEntry)) (clientHost : List Nat)
    (peer_id public_key : List Nat) (port : Nat) (files : List (List Nat))
    (ip : Option (List Nat)) (now : Nat) : List (List Nat × RegEntry) :=
  dictSet st peer_id
    { ip := resolve_client_ip clientHost ip
      port := port
      public_key := public_key
      files := files
      last_seen := now }

/-- The `for peer_id, info in PEERS.items()` loop of `get_peers`, with
CPython iterator semantics: `deleted` records that `del PEERS[peer_id]`
has shrunk the dict, and the next call to the iterator (including the
exhausting one) then raises `RuntimeError: dictionary changed size during
iteration`. -/
def get_peers_go (now : Nat) (file : Option (List Nat)) :
    List (List Nat × RegEntry) → Bool → List PeersItem → Except PyErr (List PeersItem)
  | [], deleted, acc => if deleted then .error .runtimeError else .ok acc
  | (pid, info) :: rest, deleted, acc =>
    if deleted then .error .runtimeError
    else if TIL < now - info.last_seen then
      get_peers_go now file rest true acc
    else if (match file with | none => true | some f => info.files.contains f) then
      get_peers_go now file rest deleted (acc ++ [⟨pid, info.ip, info.port, info.files⟩])
    else
      get_peers_go now file rest deleted acc

/-- `GET /peers`: iterate all entries, evicting stale ones and collecting
the active ones (optionally restricted to a file filter). -/
def get_peers (now : Nat) (file : Option (List Nat))
    (st : List (List Nat × RegEntry)) : Except PyErr (List PeersItem) :=
  get_peers_go now file st false []

theorem get_peers_go_deleted (now : Nat) (file : Option (List Nat))
    (l : List (List Nat × RegEntry)) (acc : List PeersItem) :
    get_peers_go now file l true acc = Except.error PyErr.runtimeError := by
  cases l with
  | nil => rfl
  | cons h t =>
    obtain ⟨pid, info⟩ := h
    rfl

/-! ## Claim C2: stale-entry eviction during query -/

/-- C2: the claim fails on the code — whenever the registry holds at
least one stale entry (`now - last_seen > TIL`), `get_peers` deletes it
from `PEERS` while iterating `PEERS.items()` and the very next step of
the iterator raises `RuntimeError` (HTTP 500), so the query neither
evicts all stale entries nor returns the surviving entries. -/
theorem get_peers_stale_raises (now : Nat) (file : Option (List Nat))
    (st : List (List Nat × RegEntry))
    (h : ∃ p ∈ st, TIL < now - p.2.last_seen) :
    get_peers now file st = Except.error PyErr.runtimeError := by
  suffices hgen : ∀ (l : List (List Nat × RegEntry)) (acc : List PeersItem),
      (∃ p ∈ l, TIL < now - p.2.last_seen) →
      get_peers_go now file l false acc = Except.error PyErr.runtimeError by
    exact hgen st [] h
  intro l
  induction l with
  | nil => intro acc h; simp at h
  | cons hd t ih =>
    intro acc h
    obtain ⟨pid, info⟩ := hd
    by_cases hstale : TIL < now - info.last_seen
    · simp only [get_peers_go, if_neg (Bool.false_ne_true), if_pos hstale]
      exact get_peers_go_deleted now file t acc
    · have ht : ∃ p ∈ t, TIL < now - p.2.last_seen := by
        obtain ⟨p, hp, hps⟩ := h
        rcases List.mem_cons.mp hp with rfl | hmem
        · exact absurd hps hstale
        · exact ⟨p, hmem, hps⟩
      simp only [get_peers_go, if_neg (Bool.false_ne_true), if_neg hstale]
      split
      · exact ih _ ht
      · exact ih _ ht

/-- Witness for `get_peers_stale_raises`: a single entry last seen at
time 0, queried at time 100. -/
theorem get_peers_stale_raises_witness :
    (∃ p ∈ [(([112] : List Nat), RegEntry.mk [] 9000 [] [] 0)], TIL < 100 - p.2.last_seen) ∧
    get_peers 100 none [(([112] : List Nat), RegEntry.mk [] 9000 [] [] 0)] =
      Except.error PyErr.runtimeError :=
  ⟨by decide, get_peers_stale_raises 100 none _ (by decide)⟩

/-! ## Claim C9: repeated registration overwrites -/

/-- C9: registering the same `peer_id` twice leaves exactly the second
call's entry in the registry — the second file list (overwrite, not
union) and `last_seen` equal to the second call's time. -/
theorem register_peer_overwrite (st : List (List Nat × RegEntry))
    (clientHost pid pk1 pk2 : List Nat) (port1 port2 : Nat)
    (files1 files2 : List (List Nat)) (ip1 ip2 : Option (List Nat)) (t1 t2 : Nat) :
    (register_peer (register_peer st clientHost pid pk1 port1 files1 ip1 t1)
        clientHost pid pk2 port2 files2 ip2 t2).lookup pid =
      some { ip := resolve_client_ip clientHost ip2
             port := port2
             public_key := pk2
             files := files2
             last_seen := t2 } := by
  unfold register_peer
  exact lookup_dictSet_self _ pid _

/-! ## Wire protocol constants

`src/peer/protocol.py` is imported by `server.py` and `client.py` but is
not among the provided sources. -/

/-- Modelled from the spec: the `HELLO` frame tag of `protocol.py`
(missing from the sources); the spec's frame is
`HELLO|<peer_id_hex>|<public_key_encoded>`, so the tag is the ASCII bytes
of `HELLO`. -/
def HELLO : List Nat := [72, 69, 76, 76, 79]

/-- Modelled from the spec: the `SESSION` frame tag of `protocol.py`
(missing from the sources); the spec's frame is
`SESSION|<wrapped_key_bytes>`, so the tag is the ASCII bytes of
`SESSION`. -/
def SESSION : List Nat := [83, 69, 83, 83, 73, 79, 78]

/-- ASCII bytes of `META`. -/
def METAb : List Nat := [77, 69, 84, 65]

/-- ASCII bytes of `GET`. -/
def GETb : List Nat := [71, 69, 84]

/-- ASCII bytes of `DONE`. -/
def DONEb : List Nat := [68, 79, 78, 69]

/-- ASCII bytes of `CHUNK`. -/
def CHUNKb : List Nat := [67, 72, 85, 78, 75]

/-- ASCII bytes of `ERROR`. -/
def ERRORb : List Nat := [69, 82, 82, 79, 82]

/-- ASCII bytes of `ERROR|File not found: `. -/
def errNotFound : List Nat :=
  [69, 82, 82, 79, 82, 124, 70, 105, 108, 101, 32, 110, 111, 116, 32,
   102, 111, 117, 110, 100, 58, 32]

/-! ## `src/peer/crypto.py`: session-key wrap/unwrap -/

/-- A hash algorithm name as passed to the padding constructors. -/
inductive HashAlg where
  | sha256
  | sha1
  deriving DecidableEq, Repr

/-- The `padding.OAEP(mgf=MGF1(algorithm=...), algorithm=..., label=...)`
parameter object. -/
structure OAEPPad where
  mgf : HashAlg
  alg : HashAlg
  label : Option (List Nat)
  deriving DecidableEq, Repr

/-- The padding object built inside `encrypt_session_key`:
`OAEP(mgf=MGF1(SHA256), algorithm=SHA256, label=None)`. -/
def oaepOfEncrypt : OAEPPad := ⟨HashAlg.sha256, HashAlg.sha256, none⟩

/-- The padding object built inside `decrypt_session_key`:
`OAEP(mgf=MGF1(SHA256), algorithm=SHA256, label=None)`. -/
def oaepOfDecrypt : OAEPPad := ⟨HashAlg.sha256, HashAlg.sha256, none⟩

/-- A dynamically-typed Python value as handed to `encrypt_session_key`:
either raw `bytes` or a loaded RSA public-key object of type `PK`. -/
inductive PyVal (PK : Type) where
  | bytes (b : List Nat)
  | rsaKey (k : PK)
  deriving DecidableEq

/-- `encrypt_session_key(public_key, aes_key)`: calls
`public_key.encrypt(aes_key, OAEP(...))`. `rsaEnc` is the RSA-OAEP
encryption primitive of a loaded key object; a `bytes` value has no
`.encrypt` method, so the call raises `AttributeError`. -/
def encrypt_session_key {PK : Type} (rsaEnc : PK → OAEPPad → List Nat → List Nat) :
    PyVal PK → List Nat → Except PyErr (List Nat)
  | .rsaKey k, m => .ok (rsaEnc k oaepOfEncrypt m)
  | .bytes _, _ => .error .attributeError

/-- `decrypt_session_key(private_key, encrypted_key)`: calls
`private_key.decrypt(encrypted_key, OAEP(...))`; `privDec` is the RSA-OAEP
decryption primitive of the private-key object, `none` modelling the
`CryptoError` raised when the ciphertext does not decrypt under the key. -/
def decrypt_session_key (privDec : OAEPPad → List Nat → Option (List Nat))
    (encrypted_key : List Nat) : Option (List Nat) :=
  privDec oaepOfDecrypt encrypted_key

/-! ## `src/peer/server.py`: `handle_peer` (handshake) -/

/-- Outcome of one `handle_peer` invocation, up to the point where the
session is established and `serve_file` takes over. -/
inductive HSOut (PK : Type) where
  /-- First frame did not start with `HELLO`: connection closed, no reply. -/
  | rejected
  /-- An uncaught exception escaped the handler; no `SESSION` reply was sent. -/
  | raised (e : PyErr)
  /-- Frames written (the `SESSION` reply), and the session key passed to `serve_file`. -/
  | established (writes : List (List Nat)) (sessionKey : List Nat)
  deriving DecidableEq

/-- `handle_peer(reader, writer)`: receives the first frame `data`,
checks the `HELLO` tag, splits out `peer_id` and the PEM public key,
loads the key (`loadPem`, `none` modelling a `ValueError` from
`load_pem_public_key`), generates the session key (`aes_key`, modelling
`generate_aes_key()`), and calls
`encrypt_session_key(public_key_pem, aes_key)` — note the source passes
the raw PEM bytes, not the loaded `peer_public_key` object. -/
def handle_peer {PK : Type} (loadPem : List Nat → Option PK)
    (rsaEnc : PK → OAEPPad → List Nat → List Nat)
    (aes_key : List Nat) (data : List Nat) : HSOut PK :=
  if startsWith HELLO data = false then .rejected
  else
    match pysplit 124 2 data with
    | [_, _peer_id, public_key_pem] =>
      match loadPem public_key_pem with
      | none => .raised .valueError
      | some _peer_public_key =>
        match encrypt_session_key rsaEnc (PyVal.bytes public_key_pem) aes_key with
        | .error e => .raised e
        | .ok encrypted_key => .established [SESSION ++ 124 :: encrypted_key] aes_key
    | _ => .raised .valueError

theorem pysplit_zero (sep : Nat) (l : List Nat) : pysplit sep 0 l = [l] := by
  cases l <;> simp [pysplit]

/-! ## Claim C1: handshake on a valid HELLO -/

/-- C1: the claim fails on the code — for every syntactically valid
HELLO frame whose PEM field loads as a public key, `handle_peer` passes
the raw PEM **bytes** (not the loaded key object) to
`encrypt_session_key`, so `public_key.encrypt(...)` raises
`AttributeError` and no `SESSION` frame is ever sent. -/
theorem handle_peer_valid_hello_raises {PK : Type} (loadPem : List Nat → Option PK)
    (rsaEnc : PK → OAEPPad → List Nat → List Nat) (aes_key : List Nat)
    (peer_id pem : List Nat) (k : PK)
    (hpid : 124 ∉ peer_id) (hload : loadPem pem = some k) :
    handle_peer loadPem rsaEnc aes_key (HELLO ++ 124 :: (peer_id ++ 124 :: pem)) =
      HSOut.raised PyErr.attributeError := by
  have hs : startsWith HELLO (HELLO ++ 124 :: (peer_id ++ 124 :: pem)) = true :=
    startsWith_append HELLO _
  have hH : (124 : Nat) ∉ HELLO := by decide
  have e2 : (2 : Nat) = 1 + 1 := rfl
  have e1 : (1 : Nat) = 0 + 1 := rfl
  have hsplit : pysplit 124 2 (HELLO ++ 124 :: (peer_id ++ 124 :: pem)) =
      [HELLO, peer_id, pem] := by
    rw [e2, pysplit_append_sep 124 1 HELLO _ hH, e1,
      pysplit_append_sep 124 0 peer_id _ hpid, pysplit_zero]
  rw [handle_peer, hs]
  simp only [Bool.true_eq_false, if_false, hsplit, hload, encrypt_session_key]

/-- Witness for `handle_peer_valid_hello_raises` at a concrete valid
HELLO frame (key objects modelled by `Unit`). -/
theorem handle_peer_valid_hello_raises_witness :
    ((124 : Nat) ∉ ([97] : List Nat)) ∧
    ((fun _ : List Nat => some ()) [112] = some ()) ∧
    handle_peer (fun _ : List Nat => some ()) (fun _ _ m => m) [1]
        (HELLO ++ 124 :: ([97] ++ 124 :: [112])) =
      HSOut.raised PyErr.attributeError :=
  ⟨by decide, rfl,
    handle_peer_valid_hello_raises (fun _ => some ()) (fun _ _ m => m) [1]
      [97] [112] () (by decide) rfl⟩

/-! ## `src/peer/server.py`: `serve_file` (request loop)

The loop is parametrised by the per-call symmetric primitives:
`enc i payload` is the `aes_encrypt(aes_key, payload)` result of the
`i`-th encryption call on this connection (each call draws a fresh
nonce), and `dec` is `aes_decrypt(aes_key, ·)`, with `none` modelling the
`InvalidTag` exception. `fs` models the shared directory as an
association list from filename to content bytes; `H` is the SHA-256
hex-digest function. -/

/-- Result of the `serve_file` loop: the frames written, and whether
`writer.close()` was called. -/
structure ServeOut where
  writes : List (List Nat)
  closed : Bool
  deriving DecidableEq, Repr

/-- The `META|{filename}|{size}|{chunksize}|{chunks}|{hash}` reply line. -/
def metaLine (H : List Nat → List Nat) (filename content : List Nat) : List Nat :=
  METAb ++ 124 :: (get_file_metadata H filename content).filename
    ++ 124 :: (natDigits (get_file_metadata H filename content).size
    ++ 124 :: (natDigits (get_file_metadata H filename content).chunksize
    ++ 124 :: (natDigits (get_file_metadata H filename content).chunks
    ++ 124 :: (get_file_metadata H filename content).hash)))

/-- The `CHUNK|{chunk_index}|` header followed by the raw chunk bytes. -/
def chunkFrame (chunk_index : Nat) (data : List Nat) : List Nat :=
  CHUNKb ++ 124 :: (natDigits chunk_index ++ 124 :: data)

/-- The `ERROR|File not found: {filename}` reply. -/
def errorFrame (filename : List Nat) : List Nat := errNotFound ++ filename

/-- The `while True` request loop of `serve_file`. The message list
models successive `reader.read` results (an empty read means the remote
closed, ending the loop without closing the writer); `ctr` counts
`aes_encrypt` calls and `w` accumulates the frames written so far. Any
exception (decryption failure, unpacking a split of the wrong arity,
`int()` failure) is caught by the surrounding `except`, which closes the
writer. An unrecognised request falls through the `if`/`elif` chain and
the loop just continues. -/
def serve_file (enc : Nat → List Nat → List Nat) (dec : List Nat → Option (List Nat))
    (H : List Nat → List Nat) (fs : List (List Nat × List Nat)) :
    List (List Nat) → Nat → List (List Nat) → ServeOut
  | [], _, w => ⟨w, false⟩
  | msg :: rest, ctr, w =>
    if msg = [] then ⟨w, false⟩
    else
      match dec msg with
      | none => ⟨w, true⟩
      | some request =>
        if startsWith METAb request then
          match pysplit 124 1 request with
          | [_, filename] =>
            match fs.lookup filename with
            | none =>
              serve_file enc dec H fs rest (ctr + 1) (w ++ [enc ctr (errorFrame filename)])
            | some content =>
              serve_file enc dec H fs rest (ctr + 1) (w ++ [enc ctr (metaLine H filename content)])
          | _ => ⟨w, true⟩
        else if startsWith GETb request then
          match pysplit 124 request.length request with
          | [_, filename, idxStr] =>
            match parseNat idxStr with
            | none => ⟨w, true⟩
            | some chunk_index =>
              match fs.lookup filename with
              | none =>
                serve_file enc dec H fs rest (ctr + 1) (w ++ [enc ctr (errorFrame filename)])
              | some content =>
                serve_file enc dec H fs rest (ctr + 1)
                  (w ++ [enc ctr (chunkFrame chunk_index (read_chunk content chunk_index))])
          | _ => ⟨w, true⟩
        else if request == DONEb then ⟨w, true⟩
        else serve_file enc dec H fs rest ctr w

/-! ## Claim C8: META for an absent file -/

/-- C8: a `META` request for a file absent from the shared directory is
answered with an encrypted `ERROR|File not found: <filename>` frame (the
reason carries the filename), the connection is not closed, and a
subsequent valid `META` request on the same connection is still served
with the full metadata line. -/
theorem serve_file_meta_absent_keeps_connection
    (enc : Nat → List Nat → List Nat) (dec : List Nat → Option (List Nat))
    (H : List Nat → List Nat) (fs : List (List Nat × List Nat))
    (f g cg m1 m2 : List Nat)
    (hm1 : m1 ≠ []) (hm2 : m2 ≠ [])
    (hd1 : dec m1 = some (METAb ++ 124 :: f))
    (hd2 : dec m2 = some (METAb ++ 124 :: g))
    (hf : fs.lookup f = none) (hg : fs.lookup g = some cg) :
    serve_file enc dec H fs [m1, m2] 0 [] =
      ⟨[enc 0 (errorFrame f), enc 1 (metaLine H g cg)], false⟩ ∧
    errorFrame f = errNotFound ++ f := by
  have e1 : (1 : Nat) = 0 + 1 := rfl
  have hMETA : (124 : Nat) ∉ METAb := by decide
  have hsplitf : pysplit 124 1 (METAb ++ 124 :: f) = [METAb, f] := by
    rw [e1, pysplit_append_sep 124 0 METAb f hMETA, pysplit_zero]
  have hsplitg : pysplit 124 1 (METAb ++ 124 :: g) = [METAb, g] := by
    rw [e1, pysplit_append_sep 124 0 METAb g hMETA, pysplit_zero]
  refine ⟨?_, rfl⟩
  rw [serve_file, if_neg hm1, hd1]
  simp only [startsWith_append, if_true, hsplitf, hf]
  rw [serve_file, if_neg hm2, hd2]
  simp only [startsWith_append, if_true, hsplitg, hg]
  rw [serve_file]
  simp

/-- Witness for `serve_file_meta_absent_keeps_connection`: shared
directory holding only file `g` (one byte `[9]`), a `META` request for
the absent `f`, then one for `g`; identity encryption functions. -/
theorem serve_file_meta_absent_keeps_connection_witness :
    (let dec := fun b : List Nat => some b
     (METAb ++ 124 :: [102] ≠ ([] : List Nat)) ∧
     dec (METAb ++ 124 :: [102]) = some (METAb ++ 124 :: [102]) ∧
     ([([103], [9])] : List (List Nat × List Nat)).lookup [102] = none ∧
     ([([103], [9])] : List (List Nat × List Nat)).lookup [103] = some [9] ∧
     serve_file (fun _ b => b) dec (fun b => b) [([103], [9])]
        [METAb ++ 124 :: [102], METAb ++ 124 :: [103]] 0 [] =
      ⟨[errorFrame [102], metaLine (fun b => b) [103] [9]], false⟩) := by
  refine ⟨by decide, rfl, by decide, by decide, ?_⟩
  exact (serve_file_meta_absent_keeps_connection (fun _ b => b) (fun b => some b)
    (fun b => b) [([103], [9])] [102] [103] [9] _ _
    (by decide) (by decide) rfl rfl (by decide) (by decide)).1

/-! ## Claim C10: GET with an out-of-range chunk index -/

theorem pysplit_two_seps (a b c : List Nat) (f : Nat)
    (ha : 124 ∉ a) (hb : 124 ∉ b) (hc : 124 ∉ c) (hf : 2 ≤ f) :
    pysplit 124 f (a ++ 124 :: (b ++ 124 :: c)) = [a, b, c] := by
  obtain ⟨f', rfl⟩ : ∃ f', f = (f' + 1) + 1 := ⟨f - 2, by omega⟩
  rw [pysplit_append_sep 124 (f' + 1) a _ ha, pysplit_append_sep 124 f' b _ hb,
    pysplit_no_sep 124 f' c hc]

theorem startsWith_METAb_get (r : List Nat) :
    startsWith METAb (GETb ++ 124 :: r) = false := by
  simp [startsWith, GETb, METAb, List.take]

theorem startsWith_ERRORb_chunk (r : List Nat) :
    startsWith ERRORb (CHUNKb ++ r) = false := by
  have hlen : ERRORb.length = CHUNKb.length := rfl
  rw [startsWith, hlen, List.take_left]
  decide

/-- C10: the server does not validate the `GET` chunk index against the
file's chunk count — for every file in the shared directory and every
index at or beyond `chunk_count`, `read_chunk` returns the empty byte
string without raising, and the server replies with a well-formed
`CHUNK|<index>|` frame carrying an empty payload (not an `ERROR` frame),
leaving the connection open. -/
theorem serve_file_get_out_of_range
    (enc : Nat → List Nat → List Nat) (dec : List Nat → Option (List Nat))
    (H : List Nat → List Nat) (fs : List (List Nat × List Nat))
    (g c m : List Nat) (idx : Nat)
    (hm : m ≠ []) (hg124 : 124 ∉ g)
    (hd : dec m = some (GETb ++ 124 :: (g ++ 124 :: natDigits idx)))
    (hfs : fs.lookup g = some c)
    (hidx : (get_file_metadata H g c).chunks ≤ idx) :
    serve_file enc dec H fs [m] 0 [] = ⟨[enc 0 (chunkFrame idx [])], false⟩ ∧
    read_chunk c idx = [] ∧
    chunkFrame idx [] = CHUNKb ++ 124 :: (natDigits idx ++ [124]) ∧
    startsWith ERRORb (chunkFrame idx []) = false := by
  have hclen : c.length ≤ idx * CHUNK_SIZE := by
    simp only [get_file_metadata, CHUNK_SIZE] at hidx ⊢
    omega
  have hrc : read_chunk c idx = [] := by
    rw [read_chunk, List.drop_eq_nil_of_le hclen, List.take_nil]
  have hGET : (124 : Nat) ∉ GETb := by decide
  have hsplit : pysplit 124 (GETb ++ 124 :: (g ++ 124 :: natDigits idx)).length
      (GETb ++ 124 :: (g ++ 124 :: natDigits idx)) = [GETb, g, natDigits idx] := by
    refine pysplit_two_seps GETb g (natDigits idx) _ hGET hg124
      (sep_not_mem_natDigits idx) ?_
    simp [GETb, List.length_append]
  refine ⟨?_, hrc, by simp [chunkFrame], startsWith_ERRORb_chunk _⟩
  rw [serve_file, if_neg hm, hd]
  simp only [startsWith_METAb_get, Bool.false_eq_true, if_false,
    startsWith_append, if_true, hsplit, parseNat_natDigits, hfs, hrc]
  rw [serve_file]
  simp

/-- Witness for `serve_file_get_out_of_range`: a three-byte file (one
chunk) requested at chunk index 1. -/
theorem serve_file_get_out_of_range_witness :
    (let dec := fun b : List Nat => some b
     (GETb ++ 124 :: ([103] ++ 124 :: natDigits 1) ≠ ([] : List Nat)) ∧
     ((124 : Nat) ∉ ([103] : List Nat)) ∧
     ([([103], [1, 2, 3])] : List (List Nat × List Nat)).lookup [103] = some [1, 2, 3] ∧
     (get_file_metadata (fun b => b) [103] [1, 2, 3]).chunks ≤ 1 ∧
     serve_file (fun _ b => b) dec (fun b => b) [([103], [1, 2, 3])]
        [GETb ++ 124 :: ([103] ++ 124 :: natDigits 1)] 0 [] =
      ⟨[chunkFrame 1 []], false⟩) := by
  refine ⟨by decide, by decide, by decide, by decide, ?_⟩
  exact (serve_file_get_out_of_range (fun _ b => b) (fun b => some b) (fun b => b)
    [([103], [1, 2, 3])] [103] [1, 2, 3] _ 1
    (by decide) (by decide) rfl (by decide) (by decide)).1

/-! ## `src/peer/client.py`: `connect_to_peer` (concurrent downloader)

`fetch i` models `download_single_chunk(ip, port, filename, i)` — the
bytes that chunk task `i` produced, or `none` if its connection,
decryption or frame parsing failed (the task catches every exception and
returns `None`). `order` is the completion order of the tasks: the
sequence of indices in which the racing `download_chunk` tasks inserted
their results into the `chunks` dict. `asyncio.gather` still delivers the
per-task booleans in index order. -/

/-- The metadata dict built by `get_file_metadata` on the client. -/
structure ClientMeta where
  filename : List Nat
  file_size : Nat
  chunk_size : Nat
  total_chunks : Nat
  hash : List Nat
  deriving DecidableEq, Repr

/-- The `chunks[index] = chunk_data` insertions (performed only when
`chunk_data` is truthy, i.e. nonempty), applied in completion order. -/
def buildChunks (fetch : Nat → Option (List Nat)) :
    List Nat → List (Nat × List Nat) → List (Nat × List Nat)
  | [], acc => acc
  | i :: rest, acc =>
    match fetch i with
    | some d =>
      if d ≠ [] then buildChunks fetch rest (dictSet acc i d)
      else buildChunks fetch rest acc
    | none => buildChunks fetch rest acc

/-- The reassembly loop `for i in range(total_chunks)`: write chunk `i`
to the output file and feed it to the running hash; a missing index
returns `False` with the file partially written. -/
def reassembleGo (chunks : List (Nat × List Nat)) (total : Nat) :
    Nat → List Nat → List Nat × Bool
  | i, acc =>
    if _h : i < total then
      match chunks.lookup i with
      | none => (acc, false)
      | some d => reassembleGo chunks total (i + 1) (acc ++ d)
    else (acc, true)
  termination_by i _ => total - i

/-- Result of `connect_to_peer`: the returned boolean, whether the output
file was opened (created/truncated) in the output directory, and the
bytes written to it. -/
structure DLOut where
  success : Bool
  fileCreated : Bool
  fileBytes : List Nat
  deriving DecidableEq, Repr

/-- `connect_to_peer(ip, port, filename, output_dir)` after the metadata
fetch: schedule all chunk tasks, gather their boolean results in index
order, fail (before opening the output file) unless all succeeded, then
open the file and reassemble in ascending index order, comparing the
accumulated hash with the advertised one. -/
def connect_to_peer (H : List Nat → List Nat) (meta : Option ClientMeta)
    (fetch : Nat → Option (List Nat)) (order : List Nat) : DLOut :=
  match meta with
  | none => ⟨false, false, []⟩
  | some m =>
    let results := (List.range m.total_chunks).map
      (fun i => match fetch i with
        | some d => decide (d ≠ [])
        | none => false)
    if results.all (fun b => b) then
      let chunks := buildChunks fetch order []
      match reassembleGo chunks m.total_chunks 0 [] with
      | (bytes, false) => ⟨false, true, bytes⟩
      | (bytes, true) => ⟨H bytes == m.hash, true, bytes⟩
    else ⟨false, false, []⟩

theorem lookup_buildChunks_not_mem (fetch : Nat → Option (List Nat)) :
    ∀ (order : List Nat) (acc : List (Nat × List Nat)) (i : Nat), i ∉ order →
      (buildChunks fetch order acc).lookup i = acc.lookup i := by
  intro order
  induction order with
  | nil => intro acc i _; rfl
  | cons j rest ih =>
    intro acc i hi
    have hij : i ≠ j := fun h => hi (h ▸ List.mem_cons_self j rest)
    have hrest : i ∉ rest := fun h => hi (List.mem_cons_of_mem j h)
    cases hfj : fetch j with
    | none => simp only [buildChunks, hfj]; exact ih acc i hrest
    | some d =>
      simp only [buildChunks, hfj]
      by_cases hd : d ≠ []
      · rw [if_pos hd, ih _ i hrest, lookup_dictSet_ne _ j i d hij]
      · rw [if_neg hd]
        exact ih acc i hrest

theorem lookup_buildChunks_mem (fetch : Nat → Option (List Nat)) :
    ∀ (order : List Nat) (acc : List (Nat × List Nat)) (i : Nat) (d : List Nat),
      i ∈ order → fetch i = some d → d ≠ [] →
      (buildChunks fetch order acc).lookup i = some d := by
  intro order
  induction order with
  | nil => intro acc i d hi; simp at hi
  | cons j rest ih =>
    intro acc i d hi hfi hd
    by_cases hij : i = j
    · subst hij
      simp only [buildChunks, hfi]
      rw [if_pos hd]
      by_cases hmem : i ∈ rest
      · exact ih _ i d hmem hfi hd
      · rw [lookup_buildChunks_not_mem fetch rest _ i hmem]
        exact lookup_dictSet_self acc i d
    · have hmem : i ∈ rest := by
        rcases List.mem_cons.mp hi with h | h
        · exact absurd h hij
        · exact h
      cases hfj : fetch j with
      | none => simp only [buildChunks, hfj]; exact ih acc i d hmem hfi hd
      | some e =>
        simp only [buildChunks, hfj]
        by_cases he : e ≠ []
        · rw [if_pos he]
          exact ih _ i d hmem hfi hd
        · rw [if_neg he]
          exact ih acc i d hmem hfi hd

theorem reassembleGo_complete (chunks : List (Nat × List Nat)) (total : Nat)
    (data : Nat → List Nat)
    (hl : ∀ i, i < total → chunks.lookup i = some (data i)) :
    ∀ (k j : Nat) (acc : List Nat), total - j = k →
      reassembleGo chunks total j acc =
        (acc ++ ((List.range' j k).map data).flatten, true) := by
  intro k
  induction k with
  | zero =>
    intro j acc hk
    rw [reassembleGo, dif_neg (by omega)]
    simp
  | succ k ih =>
    intro j acc hk
    have hj : j < total := by omega
    rw [reassembleGo, dif_pos hj, hl j hj]
    show reassembleGo chunks total (j + 1) (acc ++ data j) =
      (acc ++ ((List.range' j (k + 1)).map data).flatten, true)
    rw [ih (j + 1) (acc ++ data j) (by omega)]
    simp [List.range'_succ, List.append_assoc]

/-! ## Claim C3: a failed chunk fails the download, siblings intact -/

/-- C3: if any chunk task returns no data (`None` or empty bytes), the
download reports failure and the output file is never created; the
sibling tasks are unaffected — every successful chunk is still present in
the `chunks` map exactly as fetched. -/
theorem connect_to_peer_chunk_failure (H : List Nat → List Nat) (m : ClientMeta)
    (fetch : Nat → Option (List Nat)) (order : List Nat)
    (hfail : ∃ i, i < m.total_chunks ∧ (fetch i = none ∨ fetch i = some [])) :
    connect_to_peer H (some m) fetch order = ⟨false, false, []⟩ ∧
    (∀ j d, j ∈ order → fetch j = some d → d ≠ [] →
      (buildChunks fetch order []).lookup j = some d) := by
  refine ⟨?_, fun j d hj hfj hd => lookup_buildChunks_mem fetch order [] j d hj hfj hd⟩
  obtain ⟨i, hi, hcase⟩ := hfail
  have hall : ((List.range m.total_chunks).map
      (fun i => match fetch i with
        | some d => decide (d ≠ [])
        | none => false)).all (fun b => b) = false := by
    cases hres : ((List.range m.total_chunks).map
      (fun i => match fetch i with
        | some d => decide (d ≠ [])
        | none => false)).all (fun b => b) with
    | false => rfl
    | true =>
      have h2 := List.all_eq_true.mp hres _
        (List.mem_map_of_mem _ (List.mem_range.mpr hi))
      rcases hcase with h | h <;> simp [h] at h2
  rw [connect_to_peer]
  simp only [hall, Bool.false_eq_true, if_false]

/-- Witness for `connect_to_peer_chunk_failure`: two chunks, the second
fetch fails. -/
theorem connect_to_peer_chunk_failure_witness :
    (let fetch := fun i : Nat => if i = 0 then some [5] else none
     (∃ i, i < 2 ∧ (fetch i = none ∨ fetch i = some [])) ∧
     connect_to_peer (fun b => b) (some ⟨[102], 2, CHUNK_SIZE, 2, [5]⟩) fetch [0, 1] =
       ⟨false, false, []⟩) :=
  ⟨⟨1, by decide, Or.inl rfl⟩,
    (connect_to_peer_chunk_failure (fun b => b) ⟨[102], 2, CHUNK_SIZE, 2, [5]⟩
      (fun i => if i = 0 then some [5] else none) [0, 1]
      ⟨1, by decide, Or.inl rfl⟩).1⟩

/-! ## Claim C4: reassembly in ascending index order -/

/-- C4: when every chunk fetch succeeds, the output file receives exactly
the chunk bytes concatenated in ascending index order 0, 1, 2, … —
independent of the completion order (any permutation of the index range
gives the same bytes) — and the verification digest is the hash of those
bytes in that same order, compared against the advertised hash. -/
theorem connect_to_peer_reassembly_order (H : List Nat → List Nat) (m : ClientMeta)
    (fetch : Nat → Option (List Nat)) (order : List Nat)
    (hperm : order.Perm (List.range m.total_chunks))
    (hall : ∀ i, i < m.total_chunks → ∃ d, fetch i = some d ∧ d ≠ []) :
    connect_to_peer H (some m) fetch order =
      ⟨H (((List.range m.total_chunks).map fun i => (fetch i).getD []).flatten) == m.hash,
       true,
       ((List.range m.total_chunks).map fun i => (fetch i).getD []).flatten⟩ := by
  have hlook : ∀ i, i < m.total_chunks →
      (buildChunks fetch order []).lookup i = some ((fetch i).getD []) := by
    intro i hi
    obtain ⟨d, hfi, hd⟩ := hall i hi
    have hmem : i ∈ order := hperm.mem_iff.mpr (List.mem_range.mpr hi)
    rw [lookup_buildChunks_mem fetch order [] i d hmem hfi hd, hfi]
    rfl
  have hre := reassembleGo_complete (buildChunks fetch order []) m.total_chunks
    (fun i => (fetch i).getD []) hlook m.total_chunks 0 [] (by omega)
  have hallb : ((List.range m.total_chunks).map
      (fun i => match fetch i with
        | some d => decide (d ≠ [])
        | none => false)).all (fun b => b) = true := by
    rw [List.all_eq_true]
    intro b hb
    obtain ⟨i, hi, rfl⟩ := List.mem_map.mp hb
    obtain ⟨d, hfi, hd⟩ := hall i (List.mem_range.mp hi)
    simp [hfi, hd]
  rw [connect_to_peer]
  simp only [hallb, if_true]
  rw [hre]
  simp [List.range_eq_range']

/-- Witness for `connect_to_peer_reassembly_order`: two one-byte chunks
completing in reversed order still reassemble as chunk 0 then chunk 1. -/
theorem connect_to_peer_reassembly_order_witness :
    (([1, 0] : List Nat).Perm (List.range 2) ∧
     (∀ i, i < 2 → ∃ d, (fun _ : Nat => some [7]) i = some d ∧ d ≠ []) ∧
     connect_to_peer (fun b => b) (some ⟨[102], 2, CHUNK_SIZE, 2, [7, 7]⟩)
        (fun _ => some [7]) [1, 0] =
       ⟨(fun b => b) (((List.range 2).map fun i =>
            ((fun _ : Nat => some [7]) i).getD []).flatten) == ([7, 7] : List Nat),
        true,
        ((List.range 2).map fun i => ((fun _ : Nat => some [7]) i).getD []).flatten⟩) :=
  ⟨by decide, fun i _ => ⟨[7], rfl, by decide⟩,
    connect_to_peer_reassembly_order (fun b => b) ⟨[102], 2, CHUNK_SIZE, 2, [7, 7]⟩
      (fun _ => some [7]) [1, 0] (by decide) (fun i _ => ⟨[7], rfl, by decide⟩)⟩

/-! ## `src/peer/crypto.py`: symmetric AES-GCM wrappers

The AEAD itself is the `cryptography` library's `AESGCM`; it enters the
model as the pair `(E, D)` — `E key nonce pt` is `AESGCM(key).encrypt`
and `D key nonce ct` is `AESGCM(key).decrypt`, with `none` modelling the
`InvalidTag` authentication failure. The wrappers below are the source's
nonce handling. -/

/-- `aes_encrypt(aes_key, plaintext)`: draw a fresh 96-bit nonce
(`os.urandom(12)`, passed in as `nonce`), AEAD-encrypt, and prepend the
nonce to the ciphertext. -/
def aes_encrypt (E : List Nat → List Nat → List Nat → List Nat)
    (aes_key nonce plaintext : List Nat) : List Nat :=
  nonce ++ E aes_key nonce plaintext

/-- `aes_decrypt(aes_key, ciphertext)`: split off the first 12 bytes as
the nonce and feed the remainder to the AEAD open function. -/
def aes_decrypt (D : List Nat → List Nat → List Nat → Option (List Nat))
    (aes_key ciphertext : List Nat) : Option (List Nat) :=
  D aes_key (ciphertext.take 12) (ciphertext.drop 12)

theorem set_ne_of_getD_ne (l : List Nat) (j v : Nat) (h : j < l.length)
    (hv : v ≠ l.getD j 0) : l.set j v ≠ l := by
  intro heq
  apply hv
  have := congrArg (fun t => t.getD j 0) heq
  simp only at this
  rw [← this]
  simp [List.getD_eq_getElem?_getD, List.getElem?_set_self, h]

/-! ## Claim C6: symmetric round-trip and tamper detection -/

/-- C6: for every key and plaintext (empty and arbitrarily long
included), `aes_decrypt` of `aes_encrypt` under the same key returns the
original plaintext; and altering any single byte of the produced blob
(nonce or ciphertext part) makes `aes_decrypt` fail with an
authentication error instead of returning altered plaintext. The
hypotheses are the AEAD contract of AES-GCM: correctness, rejection of a
ciphertext under a different nonce, and rejection of a ciphertext altered
in any byte. -/
theorem aes_roundtrip_and_tamper
    (E : List Nat → List Nat → List Nat → List Nat)
    (D : List Nat → List Nat → List Nat → Option (List Nat))
    (key nonce : List Nat) (hn : nonce.length = 12)
    (hcorr : ∀ p, D key nonce (E key nonce p) = some p)
    (hnonce : ∀ n' p, n'.length = 12 → n' ≠ nonce → D key n' (E key nonce p) = none)
    (htam : ∀ p j b, j < (E key nonce p).length → b ≠ (E key nonce p).getD j 0 →
      D key nonce ((E key nonce p).set j b) = none) :
    (∀ p, aes_decrypt D key (aes_encrypt E key nonce p) = some p) ∧
    (∀ p j b, j < (aes_encrypt E key nonce p).length →
      b ≠ (aes_encrypt E key nonce p).getD j 0 →
      aes_decrypt D key ((aes_encrypt E key nonce p).set j b) = none) := by
  constructor
  · intro p
    rw [aes_decrypt, aes_encrypt, ← hn, List.take_left, List.drop_left]
    exact hcorr p
  · intro p j b hj hb
    rw [aes_encrypt] at hj hb ⊢
    by_cases hj12 : j < 12
    · have hjn : j < nonce.length := by omega
      rw [List.set_append_left j b hjn, aes_decrypt]
      have hlen : (nonce.set j b).length = 12 := by rw [List.length_set, hn]
      rw [← hlen, List.take_left, List.drop_left]
      refine hnonce (nonce.set j b) p hlen ?_
      refine set_ne_of_getD_ne nonce j b hjn ?_
      rw [← List.getD_append nonce (E key nonce p) 0 j hjn]
      exact hb
    · have hjn : nonce.length ≤ j := by omega
      rw [List.set_append_right j b hjn, aes_decrypt, ← hn, List.take_left,
        List.drop_left, hn]
      have hjlt : j - 12 < (E key nonce p).length := by
        rw [List.length_append, hn] at hj
        omega
      refine htam p (j - 12) b hjlt ?_
      rw [List.getD_append_right nonce (E key nonce p) 0 j hjn, hn] at hb
      exact hb

/-- An idealised AEAD used to instantiate the AES-GCM contract: the
"ciphertext" is the plaintext twice, followed by the key and the nonce,
so decryption can recover the plaintext and re-verify the entire
transcript, detecting any single-byte change. -/
def idealEnc (key nonce p : List Nat) : List Nat := p ++ p ++ key ++ nonce

/-- Decryption for `idealEnc`: recover the plaintext from the length,
then check the whole transcript. -/
def idealDec (key nonce c : List Nat) : Option (List Nat) :=
  if c = c.take ((c.length - key.length - nonce.length) / 2)
      ++ c.take ((c.length - key.length - nonce.length) / 2) ++ key ++ nonce
  then some (c.take ((c.length - key.length - nonce.length) / 2))
  else none

theorem idealEnc_take (key nonce p : List Nat) :
    ((idealEnc key nonce p).length - key.length - nonce.length) / 2 = p.length ∧
    (idealEnc key nonce p).take p.length = p := by
  constructor
  · simp [idealEnc, List.length_append]
    omega
  · rw [idealEnc, List.take_append_of_le_length (by simp [List.length_append]),
      List.take_append_of_le_length (by simp [List.length_append]),
      List.take_append_of_le_length (by omega), List.take_length]

theorem idealDec_enc (key nonce p : List Nat) :
    idealDec key nonce (idealEnc key nonce p) = some p := by
  obtain ⟨hL, htake⟩ := idealEnc_take key nonce p
  rw [idealDec, hL, htake,
    if_pos (show idealEnc key nonce p = p ++ p ++ key ++ nonce from rfl)]

theorem idealDec_wrong_nonce (key nonce n' p : List Nat)
    (hlen : n'.length = nonce.length) (hne : n' ≠ nonce) :
    idealDec key n' (idealEnc key nonce p) = none := by
  obtain ⟨hL, htake⟩ := idealEnc_take key nonce p
  have hL' : ((idealEnc key nonce p).length - key.length - n'.length) / 2 = p.length := by
    rw [hlen]; exact hL
  rw [idealDec, hL', htake, if_neg]
  intro heq
  rw [idealEnc] at heq
  exact hne (List.append_cancel_left heq).symm

theorem idealDec_tamper (key nonce p : List Nat) (j b : Nat)
    (hj : j < (idealEnc key nonce p).length)
    (hb : b ≠ (idealEnc key nonce p).getD j 0) :
    idealDec key nonce ((idealEnc key nonce p).set j b) = none := by
  have hlen : ((idealEnc key nonce p).set j b).length = (idealEnc key nonce p).length :=
    List.length_set _ _ _
  have hassoc : idealEnc key nonce p = p ++ (p ++ (key ++ nonce)) := by
    simp [idealEnc, List.append_assoc]
  have hL : (((idealEnc key nonce p).set j b).length - key.length - nonce.length) / 2 =
      p.length := by
    rw [hlen]
    exact (idealEnc_take key nonce p).1
  by_cases hjp : j < p.length
  · -- the altered byte lies in the first plaintext copy
    have hset : (idealEnc key nonce p).set j b = p.set j b ++ (p ++ (key ++ nonce)) := by
      rw [hassoc, List.set_append_left j b hjp]
    have htake : ((idealEnc key nonce p).set j b).take p.length = p.set j b := by
      rw [hset, List.take_append_of_le_length (by rw [List.length_set]),
        ← List.length_set p j b, List.take_length]
    rw [idealDec, hL, htake, if_neg]
    intro heq
    rw [hset] at heq
    have h2 : p.set j b ++ (p ++ (key ++ nonce)) =
        p.set j b ++ (p.set j b ++ (key ++ nonce)) := by
      rw [heq]
      simp [List.append_assoc]
    have h3 := List.append_cancel_left h2
    have h4 : p = p.set j b := List.append_cancel_right h3
    refine set_ne_of_getD_ne p j b hjp ?_ h4.symm
    rw [hassoc, List.getD_append p _ 0 j hjp] at hb
    exact hb
  · -- the altered byte lies in the tag section (second copy, key, nonce)
    have hjp' : p.length ≤ j := by omega
    have hset : (idealEnc key nonce p).set j b =
        p ++ (p ++ (key ++ nonce)).set (j - p.length) b := by
      rw [hassoc, List.set_append_right j b hjp']
    have htake : ((idealEnc key nonce p).set j b).take p.length = p := by
      rw [hset, List.take_append_of_le_length (le_refl _), List.take_length]
    rw [idealDec, hL, htake, if_neg]
    intro heq
    rw [hset] at heq
    have h2 : p ++ (p ++ (key ++ nonce)).set (j - p.length) b =
        p ++ (p ++ (key ++ nonce)) := by
      rw [heq]
      simp [List.append_assoc]
    have h3 := List.append_cancel_left h2
    have hjlt : j - p.length < (p ++ (key ++ nonce)).length := by
      rw [hassoc, List.length_append] at hj
      omega
    refine set_ne_of_getD_ne (p ++ (key ++ nonce)) (j - p.length) b hjlt ?_ h3
    rw [hassoc, List.getD_append_right p _ 0 j hjp'] at hb
    exact hb

/-- Witness for `aes_roundtrip_and_tamper`: the idealised AEAD at a
concrete key and nonce. -/
theorem aes_roundtrip_and_tamper_witness :
    ((List.replicate 12 0 : List Nat).length = 12) ∧
    ((∀ p, aes_decrypt (idealDec) [1, 2] (aes_encrypt idealEnc [1, 2]
        (List.replicate 12 0) p) = some p) ∧
     (∀ p j b, j < (aes_encrypt idealEnc [1, 2] (List.replicate 12 0) p).length →
        b ≠ (aes_encrypt idealEnc [1, 2] (List.replicate 12 0) p).getD j 0 →
        aes_decrypt idealDec [1, 2]
          ((aes_encrypt idealEnc [1, 2] (List.replicate 12 0) p).set j b) = none)) :=
  ⟨by decide,
    aes_roundtrip_and_tamper idealEnc idealDec [1, 2] (List.replicate 12 0)
      (by decide)
      (fun p => idealDec_enc [1, 2] (List.replicate 12 0) p)
      (fun n' p h1 h2 => idealDec_wrong_nonce [1, 2] (List.replicate 12 0) n' p
        (by rw [h1]; decide) h2)
      (fun p j b h1 h2 => idealDec_tamper [1, 2] (List.replicate 12 0) p j b h1 h2)⟩

/-! ## Claim C7: session-key wrap/unwrap round-trip -/

/-- C7: wrapping a generated symmetric key with `encrypt_session_key`
under a public key and unwrapping with the matching private key returns
exactly the key (both wrappers construct the same OAEP/SHA-256/no-label
padding); unwrapping with a non-matching private key fails instead of
returning a wrong key. The hypotheses are the RSA-OAEP keypair contract:
`privDec` inverts the public key's `rsaEnc k` at every padding
configuration, and the non-matching `privDec'` rejects its outputs. -/
theorem session_key_roundtrip {PK : Type} (k : PK)
    (rsaEnc : PK → OAEPPad → List Nat → List Nat)
    (privDec privDec' : OAEPPad → List Nat → Option (List Nat))
    (aes_key : List Nat)
    (hpair : ∀ pad m, privDec pad (rsaEnc k pad m) = some m)
    (hwrong : ∀ pad m, privDec' pad (rsaEnc k pad m) = none) :
    ∃ ek, encrypt_session_key rsaEnc (PyVal.rsaKey k) aes_key = Except.ok ek ∧
      decrypt_session_key privDec ek = some aes_key ∧
      decrypt_session_key privDec' ek = none := by
  refine ⟨rsaEnc k oaepOfEncrypt aes_key, rfl, ?_, ?_⟩
  · rw [decrypt_session_key, (rfl : oaepOfDecrypt = oaepOfEncrypt)]
    exact hpair oaepOfEncrypt aes_key
  · rw [decrypt_session_key, (rfl : oaepOfDecrypt = oaepOfEncrypt)]
    exact hwrong oaepOfEncrypt aes_key

/-- Single-byte code of a hash algorithm, for the toy RSA encoding. -/
def padByte : HashAlg → Nat
  | .sha256 => 0
  | .sha1 => 1

/-- Injective-enough byte encoding of an OAEP parameter object. -/
def padEncode (pad : OAEPPad) : List Nat :=
  padByte pad.mgf :: padByte pad.alg ::
    (match pad.label with
     | none => [0]
     | some l => 1 :: l)

/-- A toy "public key" numbered `keyId`: the ciphertext records the key
id, the padding parameters and the message. -/
def toyRsaEnc (keyId : Nat) (pad : OAEPPad) (m : List Nat) : List Nat :=
  keyId :: (padEncode pad ++ m)

/-- The matching toy "private key": accept only ciphertexts produced by
key `keyId` under the same padding. -/
def toyRsaDec (keyId : Nat) (pad : OAEPPad) (c : List Nat) : Option (List Nat) :=
  if startsWith (keyId :: padEncode pad) c = true then
    some (c.drop (keyId :: padEncode pad).length)
  else none

theorem toyRsa_pair (keyId : Nat) :
    ∀ pad m, toyRsaDec keyId pad (toyRsaEnc keyId pad m) = some m := by
  intro pad m
  have henc : toyRsaEnc keyId pad m = (keyId :: padEncode pad) ++ m := rfl
  rw [toyRsaDec, henc, startsWith_append, if_pos rfl, List.drop_left]

theorem toyRsa_wrong (keyId keyId' : Nat) (hne : keyId ≠ keyId') :
    ∀ pad m, toyRsaDec keyId' pad (toyRsaEnc keyId pad m) = none := by
  intro pad m
  have hsw : startsWith (keyId' :: padEncode pad) (toyRsaEnc keyId pad m) = false := by
    rw [startsWith]
    refine beq_eq_false_iff_ne.mpr ?_
    rw [toyRsaEnc, List.length_cons, List.take_succ_cons]
    intro h
    injection h with h1 _
    exact hne h1
  rw [toyRsaDec, hsw]
  simp

/-- Witness for `session_key_roundtrip`: toy keypair 7 wraps the key
`[9]`; toy private key 8 does not match. -/
theorem session_key_roundtrip_witness :
    (∀ pad m, toyRsaDec 7 pad (toyRsaEnc 7 pad m) = some m) ∧
    (∀ pad m, toyRsaDec 8 pad (toyRsaEnc 7 pad m) = none) ∧
    (∃ ek, encrypt_session_key toyRsaEnc (PyVal.rsaKey 7) [9] = Except.ok ek ∧
      decrypt_session_key (toyRsaDec 7) ek = some [9] ∧
      decrypt_session_key (toyRsaDec 8) ek = none) :=
  ⟨toyRsa_pair 7, toyRsa_wrong 7 8 (by decide),
    session_key_roundtrip 7 toyRsaEnc (toyRsaDec 7) (toyRsaDec 8) [9]
      (toyRsa_pair 7) (toyRsa_wrong 7 8 (by decide))⟩

end Fileshare
